import Mathlib

/-!
# NoobsterDSA: selection sort and frequency tables

A shallow embedding of three teaching snippets:

* `Codes/Sorting/SelectionSort.cpp`: `Solution::swap`, `Solution::selectionSort`;
* `Codes/Hashing/Mapping.cpp`: `preComputeHash` over `std::map<ll,ll>`;
* `Codes/Hashing/StringHash.cpp`: `PreComputeHash` over a 256-entry table.

Conventions of the embedding.

* `vector<int>` is `List Int`.  Element values are only compared and moved,
  never added, so the 32-bit range of `int` plays no role.
* The parameter `int n` is an `Int` (it may be negative or differ from the
  size of the vector).  The loop counters `i`, `j`, `minIdx` start at `0`
  and are only incremented or copied, so they are `Nat`; the loop guards are
  written over `Int` exactly as in the source (`i <= n-2`, `j <= n-1`).
  For `n ≥ 0` both counters stay `≤ n` and `n-2 ≥ -2`, so no counter
  arithmetic leaves the range of `int`.
* `arr[k]` is an unchecked access in C++.  Here every access goes through
  `index`, which fails with `Fault.outOfRange` when `k` is not a position of
  the vector; a run that never fails is a run without undefined behaviour.
* Loops are structural recursions on a budget initialised with the loop
  variant (`n - i`, `n - j`).  Running out of budget while the guard still
  holds is the separate fault `Fault.outOfFuel`.
* `Trace` is ghost state: it counts executions of the outer loop body and
  evaluations of the comparison, and records every index dereferenced.
-/

namespace NoobsterDSA

/-! ## Selection sort (`Codes/Sorting/SelectionSort.cpp`) -/

/-- Ways in which a run of the embedded code can fail. -/
inductive Fault where
  /-- An index outside the vector was dereferenced. -/
  | outOfRange
  /-- The loop budget ran out while the loop guard still held. -/
  | outOfFuel
  deriving DecidableEq, Repr

/-- Ghost instrumentation of a run of `selectionSort`. -/
structure Trace where
  /-- Number of executions of the outer loop body (lines 18-24). -/
  passes : Nat
  /-- Number of evaluations of `arr[minIdx] > arr[j]` (line 21). -/
  comparisons : Nat
  /-- Every index dereferenced on lines 21 and 24, in program order. -/
  accesses : List Nat
  deriving DecidableEq, Repr

/-- The trace of a run that has not started. -/
def Trace.init : Trace := ⟨0, 0, []⟩

/-- Checked form of `arr[k]`. -/
def index (arr : List Int) (k : Nat) : Except Fault Int :=
  match arr[k]? with
  | some v => .ok v
  | none => .error .outOfRange

/-- The method `Solution::swap(int &a, int &b)` at the call site
`swap(arr[i], arr[minIdx])`: the references `a` and `b` are the cells `a` and
`b` of `arr` (possibly the same cell).
`int temp = a; a = b; b = temp;` -/
def swap (arr : List Int) (a b : Nat) : Except Fault (List Int) := do
  let temp ← index arr a
  let vb ← index arr b
  let arr := arr.set a vb
  let arr := arr.set b temp
  pure arr

/-- The inner loop
`for (int j = i; j <= n-1; j++) if (arr[minIdx] > arr[j]) minIdx = j;`
started at the given `minIdx` and `j`; returns the final `minIdx`. -/
def innerLoop (arr : List Int) (n : Int) :
    Nat → Nat → Nat → Trace → Except Fault (Nat × Trace)
  | 0, minIdx, j, t =>
    if (j : Int) ≤ n - 1 then .error .outOfFuel else .ok (minIdx, t)
  | fuel + 1, minIdx, j, t =>
    if (j : Int) ≤ n - 1 then do
      let x ← index arr minIdx
      let y ← index arr j
      let t := { t with comparisons := t.comparisons + 1,
                        accesses := t.accesses ++ [minIdx, j] }
      let minIdx := if x > y then j else minIdx
      innerLoop arr n fuel minIdx (j + 1) t
    else .ok (minIdx, t)

/-- One execution of the outer loop body (lines 18-24) at counter `i`:
`int minIdx = i; <inner loop>; swap(arr[i], arr[minIdx]);` -/
def pass (arr : List Int) (n : Int) (i : Nat) (t : Trace) :
    Except Fault (List Int × Trace) := do
  let t := { t with passes := t.passes + 1 }
  let minIdx := i
  let (minIdx, t) ← innerLoop arr n (n - i).toNat minIdx i t
  let t := { t with accesses := t.accesses ++ [i, minIdx] }
  let arr ← swap arr i minIdx
  pure (arr, t)

/-- The outer loop `for (int i = 0; i <= n-2; i++) { <body> }` started at the
given `i`. -/
def outerLoop (n : Int) :
    Nat → List Int → Nat → Trace → Except Fault (List Int × Trace)
  | 0, arr, i, t =>
    if (i : Int) ≤ n - 2 then .error .outOfFuel else .ok (arr, t)
  | fuel + 1, arr, i, t =>
    if (i : Int) ≤ n - 2 then do
      let (arr, t) ← pass arr n i t
      outerLoop n fuel arr (i + 1) t
    else .ok (arr, t)

/-- The method `Solution::selectionSort(vector<int>& arr, int n)`: the final
contents of `arr` together with the ghost trace of the run. -/
def selectionSort (arr : List Int) (n : Int) : Except Fault (List Int × Trace) :=
  outerLoop n (n - 0).toNat arr 0 Trace.init

/-- The state of a run of `selectionSort(arr, n)` after the first `k`
iterations of the outer loop, that is after the passes `0`, ..., `k-1` (the
final state if the loop has left before). -/
def afterPasses (arr : List Int) (n : Int) : Nat → Except Fault (List Int × Trace)
  | 0 => .ok (arr, Trace.init)
  | k + 1 => do
    let (arr, t) ← afterPasses arr n k
    if (k : Int) ≤ n - 2 then pass arr n k t else .ok (arr, t)

/-! ## Frequency map (`Codes/Hashing/Mapping.cpp`)

`std::map<ll,ll>` is an ordered associative container with unique keys.  It is
embedded as the list of its entries in ascending key order, which is also the
order in which `MapIteration` visits them.  Keys and counts are `long long`;
a count is incremented once per element of a `vector<int>`, whose size is far
below `2^63`, so the counter arithmetic is exact and is carried out in `Int`. -/

/-- The type `std::map<ll,ll>`, as its entries in ascending key order. -/
abbrev Map := List (Int × Int)

/-- The keys of a map, in iteration order. -/
def keys (m : Map) : List Int := m.map Prod.fst

/-- The value stored at key `k`, if the map contains `k` (`m.find(k)`). -/
def lookup : Map → Int → Option Int
  | [], _ => none
  | (k', v) :: rest, k => if k' = k then some v else lookup rest k

/-- Insertion of the entry `(k, v)` at its place in key order when the map has
no key `k`; a map that contains `k` is left as it is. -/
def emplace : Map → Int → Int → Map
  | [], k, v => [(k, v)]
  | (k', v') :: rest, k, v =>
    if k < k' then (k, v) :: (k', v') :: rest
    else if k = k' then (k', v') :: rest
    else (k', v') :: emplace rest k v

/-- Assignment through the reference returned by `m[k]`: the value stored at
key `k` becomes `v`. -/
def assign : Map → Int → Int → Map
  | [], _, _ => []
  | (k', v') :: rest, k, v =>
    if k' = k then (k', v) :: rest else (k', v') :: assign rest k v

/-- The expression `m[k]`: a key that is absent is first inserted with the
value-initialised count `0`; the result is the map after the access and the
value the returned reference designates. -/
def subscript (m : Map) (k : Int) : Map × Int :=
  let m := emplace m k 0
  (m, (lookup m k).getD 0)

/-- The statement `mpp[x]++`. -/
def increment (mpp : Map) (x : Int) : Map :=
  let (mpp, v) := subscript mpp x
  assign mpp x (v + 1)

/-- The function `preComputeHash(vector<int> arr)`:
`map<ll,ll> mpp; for (auto x : arr) mpp[x]++; return mpp;` -/
def preComputeHash (arr : List Int) : Map :=
  arr.foldl (fun mpp x => increment mpp x) []

/-- The fetch of the query loop of `main` in `Mapping.cpp`,
`HashedArr[query]`: the value printed and the map as the access leaves it. -/
def fetch (HashedArr : Map) (query : Int) : Int × Map :=
  let (m, v) := subscript HashedArr query
  (v, m)

/-! ## Character table (`Codes/Hashing/StringHash.cpp`)

A `char` is embedded as its value, an `Int`: between `-128` and `127` where
`char` is signed (x86), between `0` and `255` where it is unsigned.  A `string`
is the list of its chars.  `HashArr[c]` is `vector::operator[](size_type)`: the
`char` is converted to the 64-bit unsigned `size_type`, which maps a negative
value `c` to `2^64 + c`.  The entries are `int`; `++` is carried out in 32-bit
two's complement. -/

/-- Conversion of a `char` value to `size_type` (unsigned, 64 bits). -/
def toSizeType (c : Int) : Nat := (c % 2 ^ 64).toNat

/-- The value of an `int` computation, reduced to 32-bit two's complement. -/
def wrapInt (x : Int) : Int := (x + 2 ^ 31) % 2 ^ 32 - 2 ^ 31

/-- The statement `HashArr[c]++`; the second component is the ghost log of the
indices dereferenced so far. -/
def countChar (HashArr : List Int × List Nat) (c : Int) :
    Except Fault (List Int × List Nat) := do
  let k := toSizeType c
  let v ← index HashArr.1 k
  pure (HashArr.1.set k (wrapInt (v + 1)), HashArr.2 ++ [k])

/-- The loop `for (auto c : s) HashArr[c]++;`. -/
def countLoop : List Int → List Int × List Nat → Except Fault (List Int × List Nat)
  | [], HashArr => .ok HashArr
  | c :: rest, HashArr => do
    let HashArr ← countChar HashArr c
    countLoop rest HashArr

/-- The function `PreComputeHash(string s)`:
`vector<int> HashArr(256, 0); for (auto c : s) HashArr[c]++; return HashArr;`
together with the ghost log of the indices dereferenced. -/
def PreComputeHash (s : List Int) : Except Fault (List Int × List Nat) :=
  countLoop s (List.replicate 256 0, [])

/-- The fetch `thePrecomputedHashArr[querryy]` of `main` in `StringHash.cpp`. -/
def fetchChar (thePrecomputedHashArr : List Int) (querryy : Int) : Except Fault Int :=
  index thePrecomputedHashArr (toSizeType querryy)

/-! ## Auxiliary facts about the selection sort embedding -/

theorem index_ok {arr : List Int} {k : Nat} (h : k < arr.length) :
    index arr k = .ok (arr.getD k 0) := by
  simp [index, List.getD_eq_getElem?_getD, List.getElem?_eq_getElem h]

theorem index_eq_ok {arr : List Int} {k : Nat} {v : Int} (h : index arr k = .ok v) :
    k < arr.length ∧ v = arr.getD k 0 := by
  unfold index at h
  by_cases hk : k < arr.length
  · simp [List.getElem?_eq_getElem hk] at h
    simp [hk, List.getD_eq_getElem?_getD, List.getElem?_eq_getElem hk, h]
  · simp [List.getElem?_eq_none (Nat.le_of_not_lt hk)] at h

theorem index_error {arr : List Int} {k : Nat} {e : Fault} (h : index arr k = .error e) :
    e = .outOfRange := by
  unfold index at h
  split at h <;> simp at h
  exact h.symm

theorem swap_ok {arr : List Int} {a b : Nat} (ha : a < arr.length) (hb : b < arr.length) :
    swap arr a b = .ok ((arr.set a (arr.getD b 0)).set b (arr.getD a 0)) := by
  simp [swap, index_ok ha, index_ok hb, bind, Except.bind, pure, Except.pure]

theorem getD_swapped (arr : List Int) {a b : Nat} (ha : a < arr.length) (hb : b < arr.length)
    (k : Nat) :
    ((arr.set a (arr.getD b 0)).set b (arr.getD a 0)).getD k 0 =
      if k = b then arr.getD a 0 else if k = a then arr.getD b 0 else arr.getD k 0 := by
  simp only [List.getD_eq_getElem?_getD, List.getElem?_set, List.length_set]
  by_cases h1 : b = k
  · subst h1; simp [hb]
  · by_cases h2 : a = k
    · subst h2; simp [h1, ha, Ne.symm h1]
    · simp [h1, h2, Ne.symm h1, Ne.symm h2]

theorem swapped_perm (arr : List Int) {a b : Nat} (ha : a < arr.length) (hb : b < arr.length) :
    ((arr.set a (arr.getD b 0)).set b (arr.getD a 0)).Perm arr := by
  rw [List.perm_iff_count]
  intro v
  have hb' : b < (arr.set a (arr.getD b 0)).length := by simpa using hb
  rw [List.count_set _ _ _ _ hb', List.count_set _ _ _ _ ha]
  simp only [List.getElem_set, List.getD_eq_getElem?_getD, List.getElem?_eq_getElem ha,
    List.getElem?_eq_getElem hb, Option.getD_some, beq_iff_eq]
  have h1 : ∀ (h : a < arr.length), arr[a] = v → 0 < arr.count v := fun h e =>
    List.count_pos_iff.mpr (e ▸ List.getElem_mem h)
  have h2 : ∀ (h : b < arr.length), arr[b] = v → 0 < arr.count v := fun h e =>
    List.count_pos_iff.mpr (e ▸ List.getElem_mem h)
  by_cases e1 : arr[a] = v <;> by_cases e2 : arr[b] = v <;> by_cases e3 : a = b <;>
    simp [e1, e2, e3]
  all_goals
    have ca : arr[a] = v → 0 < arr.count v := h1 ha
    have cb : arr[b] = v → 0 < arr.count v := h2 hb
    first
      | exact absurd e3 (by omega)
      | have pa := ca e1
        omega
      | have pb := cb e2
        omega

/-- Functional behaviour of the inner loop on a vector of at least `n` cells: it
returns the first position of a minimum of `arr[lo..n-1]`, given that `minIdx`
is such a position for `arr[lo..j-1]`. -/
theorem innerLoop_spec (arr : List Int) (n : Nat) (hn : n ≤ arr.length) (lo : Nat) :
    ∀ (fuel minIdx j : Nat) (t : Trace), lo ≤ minIdx → minIdx < n → lo ≤ j → j ≤ n →
      n - j ≤ fuel →
      (∀ k, lo ≤ k → k < j → arr.getD minIdx 0 ≤ arr.getD k 0) →
      (∀ k, lo ≤ k → k < minIdx → arr.getD minIdx 0 < arr.getD k 0) →
      ∃ m t', innerLoop arr n fuel minIdx j t = .ok (m, t') ∧ lo ≤ m ∧ m < n ∧
        (∀ k, lo ≤ k → k < n → arr.getD m 0 ≤ arr.getD k 0) ∧
        (∀ k, lo ≤ k → k < m → arr.getD m 0 < arr.getD k 0) := by
  intro fuel
  induction fuel with
  | zero =>
    intro minIdx j t h1 h2 h0 h3 h4 h5 h6
    have hj : j = n := by omega
    subst hj
    refine ⟨minIdx, t, ?_, h1, h2, h5, h6⟩
    have : ¬ ((j : Int) ≤ (j : Int) - 1) := by omega
    simp [innerLoop, this]
  | succ fuel ih =>
    intro minIdx j t h1 h2 h0 h3 h4 h5 h6
    by_cases hg : (j : Int) ≤ (n : Int) - 1
    · have hj : j < n := by omega
      have hjl : j < arr.length := by omega
      have hml : minIdx < arr.length := by omega
      simp only [innerLoop, hg, if_true, index_ok hjl, index_ok hml, bind, Except.bind]
      by_cases hc : arr.getD minIdx 0 > arr.getD j 0
      · simp only [hc, if_true]
        apply ih j (j + 1) _ h0 hj (by omega) (by omega) (by omega)
        · intro k hk1 hk2
          by_cases hkj : k = j
          · subst hkj; exact le_refl _
          · have := h5 k hk1 (by omega); omega
        · intro k hk1 hk2
          have := h5 k hk1 hk2; omega
      · simp only [hc, if_false]
        apply ih minIdx (j + 1) _ h1 h2 (by omega) (by omega) (by omega)
        · intro k hk1 hk2
          by_cases hkj : k = j
          · subst hkj; omega
          · exact h5 k hk1 (by omega)
        · exact h6
    · have hj : j = n := by omega
      subst hj
      refine ⟨minIdx, t, ?_, h1, h2, h5, h6⟩
      simp [innerLoop, hg]

/-- One pass on a vector of at least `n` cells, `i ≤ n-2`: the scan finds the
first position `m` of a minimum of `arr[i..n-1]` and the pass exchanges the
cells `i` and `m`. -/
theorem pass_spec (arr : List Int) (n : Nat) (hn : n ≤ arr.length) (i : Nat) (hi : i + 2 ≤ n)
    (t : Trace) :
    ∃ m t', pass arr n i t = .ok ((arr.set i (arr.getD m 0)).set m (arr.getD i 0), t') ∧
      i ≤ m ∧ m < n ∧
      (∀ k, i ≤ k → k < n → arr.getD m 0 ≤ arr.getD k 0) ∧
      (∀ k, i ≤ k → k < m → arr.getD m 0 < arr.getD k 0) := by
  have hfuel : n - i ≤ ((n : Int) - (i : Int)).toNat := by omega
  obtain ⟨m, t', hrun, h1, h2, h3, h4⟩ :=
    innerLoop_spec arr n hn i ((n : Int) - (i : Int)).toNat i i
      { t with passes := t.passes + 1 } (le_refl _) (by omega) (le_refl _) (by omega) hfuel
      (fun k hk1 hk2 => by omega) (fun k hk1 hk2 => by omega)
  refine ⟨m, { t' with accesses := t'.accesses ++ [i, m] }, ?_, h1, h2, h3, h4⟩
  have hil : i < arr.length := by omega
  have hml : m < arr.length := by omega
  simp only [pass, hrun, swap_ok hil hml, bind, Except.bind, pure, Except.pure]

/-- Total correctness of the outer loop on a vector of at least `n` cells,
started at `i` with `arr[0..i-1]` non-decreasing and below `arr[i..n-1]`. -/
theorem outerLoop_spec (n : Nat) :
    ∀ (fuel : Nat) (arr : List Int) (i : Nat) (t : Trace), n ≤ arr.length → i ≤ n - 1 →
      n - i ≤ fuel →
      (∀ a b, a ≤ b → b < i → arr.getD a 0 ≤ arr.getD b 0) →
      (∀ a b, a < i → i ≤ b → b < n → arr.getD a 0 ≤ arr.getD b 0) →
      ∃ out t', outerLoop n fuel arr i t = .ok (out, t') ∧ out.length = arr.length ∧
        out.Perm arr ∧
        (∀ a b, a ≤ b → b < n → out.getD a 0 ≤ out.getD b 0) ∧
        (∀ k, n ≤ k → out.getD k 0 = arr.getD k 0) := by
  intro fuel
  induction fuel with
  | zero =>
    intro arr i t hn hi hf inv1 inv2
    have hg : ¬ ((i : Int) ≤ (n : Int) - 2) := by omega
    refine ⟨arr, t, by simp [outerLoop, hg], rfl, List.Perm.refl _, ?_, fun _ _ => rfl⟩
    intro a b hab hb
    omega
  | succ fuel ih =>
    intro arr i t hn hi hf inv1 inv2
    by_cases hg : (i : Int) ≤ (n : Int) - 2
    · have hi2 : i + 2 ≤ n := by omega
      obtain ⟨m, t1, hrun, h1, h2, h3, h4⟩ := pass_spec arr n hn i hi2 t
      have hil : i < arr.length := by omega
      have hml : m < arr.length := by omega
      have hlen : ((arr.set i (arr.getD m 0)).set m (arr.getD i 0)).length = arr.length := by
        simp
      obtain ⟨out, t2, hrun2, hl2, hp2, hs2, hf2⟩ :=
        ih ((arr.set i (arr.getD m 0)).set m (arr.getD i 0)) (i + 1) t1 (by omega) (by omega)
          (by omega)
          (by
            intro a b hab hb
            rw [getD_swapped arr hil hml, getD_swapped arr hil hml]
            by_cases hbi : b = i
            · subst hbi
              by_cases hai : a = b
              · subst hai; exact le_refl _
              · have ham : a ≠ m := by omega
                have := inv2 a m (by omega) h1 h2
                by_cases hbm : b = m
                · subst hbm; simpa [hai] using this
                · simpa [hbm, hai, ham] using this
            · have hbm : b ≠ m := by omega
              have hai : a ≠ i := by omega
              have ham : a ≠ m := by omega
              simpa [hbm, hbi, hai, ham] using inv1 a b hab (by omega))
          (by
            intro a b ha hb1 hb2
            rw [getD_swapped arr hil hml, getD_swapped arr hil hml]
            have hbi : b ≠ i := by omega
            have hrhs : ∃ k, i ≤ k ∧ k < n ∧
                (if b = m then arr.getD i 0 else if b = i then arr.getD m 0 else arr.getD b 0)
                  = arr.getD k 0 := by
              by_cases hbm : b = m
              · exact ⟨i, le_refl _, by omega, by simp [hbm]⟩
              · exact ⟨b, by omega, hb2, by simp [hbm, hbi]⟩
            obtain ⟨k, hk1, hk2, hk⟩ := hrhs
            rw [hk]
            by_cases hai : a = i
            · subst hai
              have := h3 k hk1 hk2
              by_cases ham : a = m
              · subst ham; simpa using this
              · simpa [ham] using this
            · have ham : a ≠ m := by omega
              simpa [ham, hai] using inv2 a k (by omega) hk1 hk2)
      refine ⟨out, t2, ?_, by omega, hp2.trans (swapped_perm arr hil hml), hs2, ?_⟩
      · simp only [outerLoop, hg, if_true, hrun, hrun2, bind, Except.bind]
      · intro k hk
        rw [hf2 k hk, getD_swapped arr hil hml]
        have : k ≠ m := by omega
        have : k ≠ i := by omega
        simp [*]
    · have hin : i = n - 1 := by omega
      refine ⟨arr, t, by simp [outerLoop, hg], rfl, List.Perm.refl _, ?_, fun _ _ => rfl⟩
      intro a b hab hb
      by_cases hbi : b < i
      · exact inv1 a b hab hbi
      · by_cases hai : a < i
        · exact inv2 a b hai (by omega) hb
        · have : a = b := by omega
          subst this; exact le_refl _

theorem set_getD_self (arr : List Int) (i : Nat) : arr.set i (arr.getD i 0) = arr := by
  apply List.ext_getElem?
  intro k
  rw [List.getElem?_set]
  by_cases hik : i = k
  · subst hik
    by_cases hi : i < arr.length
    · simp [hi, List.getD_eq_getElem?_getD, List.getElem?_eq_getElem hi]
    · simp [hi, List.getElem?_eq_none (Nat.le_of_not_lt hi)]
  · simp [hik]

/-- When cell `i` already holds a minimum of `arr[i..n-1]`, the pass leaves the
vector as it is. -/
theorem pass_of_min (arr : List Int) (n : Nat) (hn : n ≤ arr.length) (i : Nat) (hi : i + 2 ≤ n)
    (t : Trace) (hmin : ∀ k, i ≤ k → k < n → arr.getD i 0 ≤ arr.getD k 0) :
    ∃ t', pass arr n i t = .ok (arr, t') := by
  obtain ⟨m, t', hrun, h1, h2, _, h4⟩ := pass_spec arr n hn i hi t
  have hm : m = i := by
    by_contra hne
    have := h4 i (le_refl _) (by omega)
    have := hmin m h1 h2
    omega
  subst hm
  rw [set_getD_self, set_getD_self] at hrun
  exact ⟨t', hrun⟩

/-- On a vector whose first `n` cells are non-decreasing the outer loop changes
nothing. -/
theorem outerLoop_sorted (n : Nat) (arr : List Int) (hn : n ≤ arr.length)
    (hs : ∀ a b, a ≤ b → b < n → arr.getD a 0 ≤ arr.getD b 0) :
    ∀ (fuel i : Nat) (t : Trace), n - i ≤ fuel →
      ∃ t', outerLoop n fuel arr i t = .ok (arr, t') := by
  intro fuel
  induction fuel with
  | zero =>
    intro i t hf
    have hg : ¬ ((i : Int) ≤ (n : Int) - 2) := by omega
    exact ⟨t, by simp only [outerLoop, hg, if_false]⟩
  | succ fuel ih =>
    intro i t hf
    by_cases hg : (i : Int) ≤ (n : Int) - 2
    · obtain ⟨t1, hrun⟩ := pass_of_min arr n hn i (by omega) t (fun k hk1 hk2 => hs i k hk1 hk2)
      obtain ⟨t2, hrun2⟩ := ih (i + 1) t1 (by omega)
      exact ⟨t2, by simp only [outerLoop, hg, if_true, hrun, hrun2, bind, Except.bind]⟩
    · exact ⟨t, by simp only [outerLoop, hg, if_false]⟩

/-- The inner loop never exhausts a budget of at least `n - j`. -/
theorem innerLoop_fuel (arr : List Int) (n : Int) :
    ∀ (fuel minIdx j : Nat) (t : Trace), (n - j).toNat ≤ fuel →
      innerLoop arr n fuel minIdx j t ≠ .error .outOfFuel := by
  intro fuel
  induction fuel with
  | zero =>
    intro minIdx j t hf
    have hg : ¬ ((j : Int) ≤ n - 1) := by omega
    simp only [innerLoop, hg, if_false]
    exact fun h => by cases h
  | succ fuel ih =>
    intro minIdx j t hf
    by_cases hg : (j : Int) ≤ n - 1
    · simp only [innerLoop, hg, if_true, bind, Except.bind]
      cases hx : index arr minIdx with
      | error e =>
        have := index_error hx
        subst this
        exact fun h => by cases h
      | ok x =>
        cases hy : index arr j with
        | error e =>
          have := index_error hy
          subst this
          exact fun h => by cases h
        | ok y =>
          exact ih _ _ _ (by push_cast; omega)
    · simp only [innerLoop, hg, if_false]
      exact fun h => by cases h

theorem swap_error {arr : List Int} {a b : Nat} {e : Fault} (h : swap arr a b = .error e) :
    e = .outOfRange := by
  simp only [swap, bind, Except.bind, pure, Except.pure] at h
  cases hx : index arr a with
  | error e1 =>
    rw [hx] at h
    have := index_error hx
    cases h
    exact this
  | ok x =>
    rw [hx] at h
    cases hy : index arr b with
    | error e1 =>
      rw [hy] at h
      have := index_error hy
      cases h
      exact this
    | ok y =>
      rw [hy] at h
      cases h

/-- A pass never exhausts its budget. -/
theorem pass_fuel (arr : List Int) (n : Int) (i : Nat) (t : Trace) :
    pass arr n i t ≠ .error .outOfFuel := by
  simp only [pass, bind, Except.bind, pure, Except.pure]
  cases hin : innerLoop arr n (n - i).toNat i i { t with passes := t.passes + 1 } with
  | error e =>
    intro h
    cases h
    exact innerLoop_fuel arr n _ i i _ (le_refl _) hin
  | ok r =>
    intro h
    cases hsw : swap arr i r.1 with
    | error e =>
      have := swap_error hsw
      subst this
      simp only [hsw] at h
      cases h
    | ok arr1 =>
      simp only [hsw] at h
      cases h

/-- The outer loop never exhausts a budget of at least `n - i`. -/
theorem outerLoop_fuel (n : Int) :
    ∀ (fuel : Nat) (arr : List Int) (i : Nat) (t : Trace), (n - i).toNat ≤ fuel →
      outerLoop n fuel arr i t ≠ .error .outOfFuel := by
  intro fuel
  induction fuel with
  | zero =>
    intro arr i t hf
    have hg : ¬ ((i : Int) ≤ n - 2) := by omega
    simp only [outerLoop, hg, if_false]
    exact fun h => by cases h
  | succ fuel ih =>
    intro arr i t hf
    by_cases hg : (i : Int) ≤ n - 2
    · simp only [outerLoop, hg, if_true, bind, Except.bind]
      cases hp : pass arr n i t with
      | error e =>
        intro h
        cases h
        exact pass_fuel arr n i t hp
      | ok r =>
        exact ih _ _ _ (by push_cast; omega)
    · simp only [outerLoop, hg, if_false]
      exact fun h => by cases h

theorem swap_eq_ok {arr out : List Int} {a b : Nat} (h : swap arr a b = .ok out) :
    a < arr.length ∧ b < arr.length ∧
      out = (arr.set a (arr.getD b 0)).set b (arr.getD a 0) := by
  simp only [swap, bind, Except.bind, pure, Except.pure] at h
  cases hx : index arr a with
  | error e => simp only [hx] at h; cases h
  | ok x =>
    cases hy : index arr b with
    | error e => simp only [hx, hy] at h; cases h
    | ok y =>
      simp only [hx, hy] at h
      obtain ⟨ha, hxa⟩ := index_eq_ok hx
      obtain ⟨hb, hyb⟩ := index_eq_ok hy
      subst hxa hyb
      cases h
      exact ⟨ha, hb, rfl⟩

/-- Every index the inner loop logs is a position of the vector. -/
theorem innerLoop_accesses (arr : List Int) (n : Int) :
    ∀ (fuel minIdx j : Nat) (t : Trace) (m : Nat) (t' : Trace),
      innerLoop arr n fuel minIdx j t = .ok (m, t') →
      (∀ x ∈ t.accesses, x < arr.length) → ∀ x ∈ t'.accesses, x < arr.length := by
  intro fuel
  induction fuel with
  | zero =>
    intro minIdx j t m t' h ht
    by_cases hg : (j : Int) ≤ n - 1
    · simp only [innerLoop, hg, if_true] at h
      cases h
    · simp only [innerLoop, hg, if_false] at h
      cases h
      exact ht
  | succ fuel ih =>
    intro minIdx j t m t' h ht
    by_cases hg : (j : Int) ≤ n - 1
    · simp only [innerLoop, hg, if_true, bind, Except.bind] at h
      cases hx : index arr minIdx with
      | error e => simp only [hx] at h; cases h
      | ok x =>
        cases hy : index arr j with
        | error e => simp only [hx, hy] at h; cases h
        | ok y =>
          simp only [hx, hy] at h
          refine ih _ _ _ _ _ h ?_
          intro k hk
          simp only [List.mem_append, List.mem_cons, List.mem_singleton, List.not_mem_nil,
            or_false] at hk
          rcases hk with hk | hk | hk
          · exact ht k hk
          · subst hk; exact (index_eq_ok hx).1
          · subst hk; exact (index_eq_ok hy).1
    · simp only [innerLoop, hg, if_false] at h
      cases h
      exact ht

/-- A pass keeps the size of the vector and logs only positions of it. -/
theorem pass_accesses (arr : List Int) (n : Int) (i : Nat) (t : Trace) (out : List Int)
    (t' : Trace) (h : pass arr n i t = .ok (out, t')) :
    out.length = arr.length ∧
      ((∀ x ∈ t.accesses, x < arr.length) → ∀ x ∈ t'.accesses, x < arr.length) := by
  simp only [pass, bind, Except.bind, pure, Except.pure] at h
  cases hin : innerLoop arr n (n - i).toNat i i { t with passes := t.passes + 1 } with
  | error e => simp only [hin] at h; cases h
  | ok r =>
    obtain ⟨m, t1⟩ := r
    simp only [hin] at h
    cases hsw : swap arr i m with
    | error e => simp only [hsw] at h; cases h
    | ok arr1 =>
      simp only [hsw] at h
      cases h
      obtain ⟨hi, hm, hout⟩ := swap_eq_ok hsw
      subst hout
      refine ⟨by simp, ?_⟩
      intro ht k hk
      simp only [List.mem_append, List.mem_cons, List.mem_singleton, List.not_mem_nil,
        or_false] at hk
      rcases hk with hk | hk | hk
      · exact innerLoop_accesses arr n _ _ _ _ _ _ hin ht k hk
      · subst hk; exact hi
      · subst hk; exact hm

/-- The outer loop keeps the size of the vector and logs only positions of it. -/
theorem outerLoop_accesses (n : Int) :
    ∀ (fuel : Nat) (arr : List Int) (i : Nat) (t : Trace) (out : List Int) (t' : Trace),
      outerLoop n fuel arr i t = .ok (out, t') →
      out.length = arr.length ∧
        ((∀ x ∈ t.accesses, x < arr.length) → ∀ x ∈ t'.accesses, x < arr.length) := by
  intro fuel
  induction fuel with
  | zero =>
    intro arr i t out t' h
    by_cases hg : (i : Int) ≤ n - 2
    · simp only [outerLoop, hg, if_true] at h
      cases h
    · simp only [outerLoop, hg, if_false] at h
      cases h
      exact ⟨rfl, fun ht => ht⟩
  | succ fuel ih =>
    intro arr i t out t' h
    by_cases hg : (i : Int) ≤ n - 2
    · simp only [outerLoop, hg, if_true, bind, Except.bind] at h
      cases hp : pass arr n i t with
      | error e => simp only [hp] at h; cases h
      | ok r =>
        obtain ⟨arr1, t1⟩ := r
        simp only [hp] at h
        obtain ⟨hl1, ha1⟩ := pass_accesses arr n i t arr1 t1 hp
        obtain ⟨hl2, ha2⟩ := ih arr1 (i + 1) t1 out t' h
        refine ⟨hl2.trans hl1, fun ht => ?_⟩
        have := ha2 (by rw [hl1]; exact ha1 ht)
        rwa [hl1] at this
    · simp only [outerLoop, hg, if_false] at h
      cases h
      exact ⟨rfl, fun ht => ht⟩

/-- The whole call on a vector of at least `n` cells: it returns normally, keeps
the size, permutes the contents, leaves the first `n` cells non-decreasing and
the cells from `n` on untouched. -/
theorem selectionSort_spec (arr : List Int) (n : Nat) (hn : n ≤ arr.length) :
    ∃ out t, selectionSort arr n = .ok (out, t) ∧ out.length = arr.length ∧ out.Perm arr ∧
      (∀ a b, a ≤ b → b < n → out.getD a 0 ≤ out.getD b 0) ∧
      (∀ k, n ≤ k → out.getD k 0 = arr.getD k 0) :=
  outerLoop_spec n ((n : Int) - 0).toNat arr 0 Trace.init hn (Nat.zero_le _) (by omega)
    (fun a b _ hb => absurd hb (Nat.not_lt_zero _))
    (fun a b ha _ _ => absurd ha (Nat.not_lt_zero _))

/-- The whole call on a vector whose first `n` cells are already
non-decreasing returns the vector as it is. -/
theorem selectionSort_of_sorted (arr : List Int) (n : Nat) (hn : n ≤ arr.length)
    (hs : ∀ a b, a ≤ b → b < n → arr.getD a 0 ≤ arr.getD b 0) :
    ∃ t, selectionSort arr n = .ok (arr, t) :=
  outerLoop_sorted n arr hn hs ((n : Int) - 0).toNat 0 Trace.init (by omega)

/-! ## Properties of `selectionSort` -/

/-- C1: for every vector `arr`, the call `selectionSort(arr, arr.size())`
returns normally and leaves in `arr` a permutation of the original contents:
the same length, and every value occurs exactly as often as before. -/
theorem selectionSort_permutation (arr : List Int) :
    ∃ out t, selectionSort arr arr.length = .ok (out, t) ∧ out.Perm arr ∧
      out.length = arr.length ∧ ∀ v : Int, out.count v = arr.count v := by
  obtain ⟨out, t, hrun, hlen, hperm, _, _⟩ := selectionSort_spec arr arr.length (le_refl _)
  exact ⟨out, t, hrun, hperm, hlen, fun v => hperm.count_eq v⟩

/-- C2: for every vector `arr`, the call `selectionSort(arr, arr.size())`
returns normally and leaves `arr` non-decreasing: `arr[i] ≤ arr[i+1]` for every
`i` with `i + 1 < n`. -/
theorem selectionSort_nondecreasing (arr : List Int) :
    ∃ out t, selectionSort arr arr.length = .ok (out, t) ∧ out.length = arr.length ∧
      ∀ (i : Nat) (h : i + 1 < out.length),
        out.get ⟨i, Nat.lt_of_succ_lt h⟩ ≤ out.get ⟨i + 1, h⟩ := by
  obtain ⟨out, t, hrun, hlen, _, hsorted, _⟩ := selectionSort_spec arr arr.length (le_refl _)
  refine ⟨out, t, hrun, hlen, fun i h => ?_⟩
  have := hsorted i (i + 1) (Nat.le_succ i) (by omega)
  rwa [List.getD_eq_getElem out 0 (Nat.lt_of_succ_lt h), List.getD_eq_getElem out 0 h] at this

/-- C3: sorting is idempotent: running `selectionSort` on the vector left by
`selectionSort(S, S.size())` returns normally with that same vector. -/
theorem selectionSort_idempotent (S : List Int) :
    ∃ out t, selectionSort S S.length = .ok (out, t) ∧
      ∃ t', selectionSort out out.length = .ok (out, t') := by
  obtain ⟨out, t, hrun, hlen, _, hsorted, _⟩ := selectionSort_spec S S.length (le_refl _)
  refine ⟨out, t, hrun, ?_⟩
  exact selectionSort_of_sorted out out.length (le_refl _)
    (fun a b hab hb => hsorted a b hab (by omega))

/-- C4: on the empty vector with `n = 0` and on a one-element vector with
`n = 1` the call returns the vector unchanged, and the outer loop body is never
entered (no pass, no comparison, no access is recorded). -/
theorem selectionSort_short :
    selectionSort [] 0 = .ok ([], { passes := 0, comparisons := 0, accesses := [] }) ∧
      ∀ x : Int,
        selectionSort [x] 1 = .ok ([x], { passes := 0, comparisons := 0, accesses := [] }) :=
  ⟨rfl, fun _ => rfl⟩

/-- C5: on the vector of the `main` harness, `[1,2,3,45,23,124,12,43,5,32,1]`
with `n = 11`, the call leaves `[1,1,2,3,5,12,23,32,43,45,124]`. -/
theorem selectionSort_main_harness :
    ∃ t, selectionSort [1, 2, 3, 45, 23, 124, 12, 43, 5, 32, 1] 11 =
      .ok ([1, 1, 2, 3, 5, 12, 23, 32, 43, 45, 124], t) :=
  ⟨_, rfl⟩

/-- C6: on the reverse-sorted vector `[5,4,3,2,1]` with `n = 5` the call leaves
`[1,2,3,4,5]` after exactly `4 = n - 1` executions of the outer loop body. -/
theorem selectionSort_reverse_sorted :
    ∃ t, selectionSort [5, 4, 3, 2, 1] 5 = .ok ([1, 2, 3, 4, 5], t) ∧ t.passes = 4 :=
  ⟨_, rfl, rfl⟩

/-- C7: all ties: for every value `v` and length `k`, the call on `k` copies of
`v` with `n = k` returns that same vector; in particular `[2,2,2]` yields
`[2,2,2]`. -/
theorem selectionSort_all_ties :
    (∀ (v : Int) (k : Nat), ∃ t,
        selectionSort (List.replicate k v) k = .ok (List.replicate k v, t)) ∧
      ∃ t, selectionSort [2, 2, 2] 3 = .ok ([2, 2, 2], t) := by
  refine ⟨fun v k => ?_, ⟨_, rfl⟩⟩
  apply selectionSort_of_sorted (List.replicate k v) k (by simp)
  intro a b hab hb
  have ha : a < (List.replicate k v).length := by simp; omega
  have hb' : b < (List.replicate k v).length := by simpa using hb
  rw [List.getD_eq_getElem _ 0 ha, List.getD_eq_getElem _ 0 hb']
  simp

/-- C8: the call `selectionSort(arr, arr.size())` never indexes out of range:
it returns normally (no `outOfRange` fault is raised by any checked access) and
every index dereferenced on lines 21 and 24 lies in `[0, n-1]`. -/
theorem selectionSort_in_range (arr : List Int) :
    ∃ out t, selectionSort arr arr.length = .ok (out, t) ∧
      ∀ k ∈ t.accesses, 0 ≤ k ∧ k < arr.length := by
  obtain ⟨out, t, hrun, _⟩ := selectionSort_spec arr arr.length (le_refl _)
  refine ⟨out, t, hrun, fun k hk => ⟨Nat.zero_le k, ?_⟩⟩
  exact (outerLoop_accesses _ _ arr 0 Trace.init out t hrun).2
    (fun x hx => by simp [Trace.init] at hx) k hk

/-- C9: termination: whatever the vector and the value of `n`, the loop guards
fail before the budgets `n - j` (inner loop) and `n - i` (outer loop) are used
up, so the call never ends in `outOfFuel`; with `n = arr.size()` it returns
normally. -/
theorem selectionSort_terminates (arr : List Int) :
    (∀ (n : Int) (fuel minIdx j : Nat) (t : Trace), (n - j).toNat ≤ fuel →
        innerLoop arr n fuel minIdx j t ≠ .error .outOfFuel) ∧
      (∀ (n : Int) (fuel i : Nat) (t : Trace), (n - i).toNat ≤ fuel →
        outerLoop n fuel arr i t ≠ .error .outOfFuel) ∧
      (∀ n : Int, selectionSort arr n ≠ .error .outOfFuel) ∧
      ∃ r, selectionSort arr arr.length = .ok r := by
  refine ⟨fun n => innerLoop_fuel arr n, fun n fuel i t h => outerLoop_fuel n fuel arr i t h,
    fun n => outerLoop_fuel n _ arr 0 Trace.init (le_refl _), ?_⟩
  obtain ⟨out, t, hrun, _⟩ := selectionSort_spec arr arr.length (le_refl _)
  exact ⟨(out, t), hrun⟩

/-! ## Auxiliary facts about the frequency map -/

theorem lookup_eq_none_iff (m : Map) (k : Int) : lookup m k = none ↔ k ∉ keys m := by
  induction m with
  | nil => simp [lookup, keys]
  | cons p rest ih =>
    obtain ⟨k', v⟩ := p
    by_cases h : k' = k
    · simp [lookup, keys, h]
    · have ih' : lookup rest k = none ↔ k ∉ List.map Prod.fst rest := ih
      simp [lookup, keys, h, ih', Ne.symm h]

theorem mem_keys_emplace (m : Map) (k v x : Int) :
    x ∈ keys (emplace m k v) ↔ x = k ∨ x ∈ keys m := by
  induction m with
  | nil => simp [emplace, keys]
  | cons p rest ih =>
    obtain ⟨k', v'⟩ := p
    have ih' : x ∈ List.map Prod.fst (emplace rest k v) ↔ x = k ∨ x ∈ List.map Prod.fst rest := ih
    by_cases h1 : k < k'
    · simp [emplace, keys, h1]
    · by_cases h2 : k = k'
      · subst h2; simp [emplace, keys]
      · simp only [emplace, keys, h1, h2, if_false, List.map_cons, List.mem_cons, ih']
        tauto

theorem emplace_sorted (m : Map) (k v : Int) (hm : (keys m).Pairwise (· < ·)) :
    (keys (emplace m k v)).Pairwise (· < ·) := by
  induction m with
  | nil => simp [emplace, keys]
  | cons p rest ih =>
    obtain ⟨k', v'⟩ := p
    have hm' : (∀ a ∈ keys rest, k' < a) ∧ (keys rest).Pairwise (· < ·) := by
      simpa [keys] using hm
    by_cases h1 : k < k'
    · have : keys (emplace ((k', v') :: rest) k v) = k :: k' :: keys rest := by
        simp [emplace, keys, h1]
      rw [this]
      refine List.Pairwise.cons ?_ (List.Pairwise.cons hm'.1 hm'.2)
      intro a ha
      rcases List.mem_cons.mp ha with ha | ha
      · omega
      · have := hm'.1 a ha; omega
    · by_cases h2 : k = k'
      · have : emplace ((k', v') :: rest) k v = (k', v') :: rest := by
          simp [emplace, h2]
        rw [this]; exact hm
      · have : keys (emplace ((k', v') :: rest) k v) = k' :: keys (emplace rest k v) := by
          simp [emplace, keys, h1, h2]
        rw [this]
        refine List.Pairwise.cons ?_ (ih hm'.2)
        intro a ha
        rcases (mem_keys_emplace rest k v a).mp ha with ha | ha
        · omega
        · exact hm'.1 a ha

theorem lookup_emplace (m : Map) (k v x : Int) (hm : (keys m).Pairwise (· < ·)) :
    lookup (emplace m k v) x =
      if x = k then some ((lookup m k).getD v) else lookup m x := by
  induction m with
  | nil =>
    by_cases h : x = k
    · simp [emplace, lookup, h]
    · simp [emplace, lookup, h, Ne.symm h]
  | cons p rest ih =>
    obtain ⟨k', v'⟩ := p
    have hm' : (∀ a ∈ keys rest, k' < a) ∧ (keys rest).Pairwise (· < ·) := by
      simpa [keys] using hm
    by_cases h1 : k < k'
    · have hk : lookup rest k = none := by
        rw [lookup_eq_none_iff]
        intro hmem
        have := hm'.1 k hmem
        omega
      have hne : k' ≠ k := by omega
      by_cases h : x = k
      · subst h; simp [emplace, lookup, h1, hne, hk]
      · simp [emplace, lookup, h1, h, Ne.symm h]
    · by_cases h2 : k = k'
      · subst h2
        by_cases h : x = k
        · subst h; simp [emplace, lookup]
        · simp [emplace, lookup, h]
      · have hne : k' ≠ k := Ne.symm h2
        simp only [emplace, h1, h2, if_false, lookup, hne, ih hm'.2]
        by_cases h : x = k
        · subst h; simp [hne]
        · simp [h]

theorem keys_assign (m : Map) (k v : Int) : keys (assign m k v) = keys m := by
  induction m with
  | nil => simp [assign, keys]
  | cons p rest ih =>
    obtain ⟨k', v'⟩ := p
    have ih' : List.map Prod.fst (assign rest k v) = List.map Prod.fst rest := ih
    by_cases h : k' = k
    · simp [assign, keys, h]
    · simp [assign, keys, h, ih']

theorem lookup_assign (m : Map) (k v x : Int) :
    lookup (assign m k v) x =
      if x = k then (lookup m k).map (fun _ => v) else lookup m x := by
  induction m with
  | nil => simp [assign, lookup]
  | cons p rest ih =>
    obtain ⟨k', v'⟩ := p
    by_cases h : k' = k
    · subst h
      by_cases hx : x = k'
      · subst hx; simp [assign, lookup]
      · simp [assign, lookup, hx, Ne.symm hx]
    · by_cases hx : x = k
      · subst hx; simp [assign, lookup, h, ih]
      · by_cases hx' : k' = x
        · simp [assign, lookup, h, hx, hx']
        · simp [assign, lookup, h, hx, hx', ih]

theorem mem_keys_increment (m : Map) (k x : Int) :
    x ∈ keys (increment m k) ↔ x = k ∨ x ∈ keys m := by
  simp only [increment, subscript, keys_assign, mem_keys_emplace]

theorem increment_sorted (m : Map) (k : Int) (hm : (keys m).Pairwise (· < ·)) :
    (keys (increment m k)).Pairwise (· < ·) := by
  simp only [increment, subscript, keys_assign]
  exact emplace_sorted m k 0 hm

theorem lookup_increment (m : Map) (k x : Int) (hm : (keys m).Pairwise (· < ·)) :
    lookup (increment m k) x =
      if x = k then some ((lookup m k).getD 0 + 1) else lookup m x := by
  simp only [increment, subscript, lookup_assign, lookup_emplace m k 0 _ hm]
  by_cases h : x = k
  · simp [h]
  · simp [h]

/-- The loop of `preComputeHash` started from a map `m` with ascending keys. -/
theorem foldl_increment (arr : List Int) :
    ∀ m : Map, (keys m).Pairwise (· < ·) →
      (keys (arr.foldl (fun mpp x => increment mpp x) m)).Pairwise (· < ·) ∧
      ∀ x : Int,
        (x ∈ keys (arr.foldl (fun mpp x => increment mpp x) m) ↔ x ∈ arr ∨ x ∈ keys m) ∧
        lookup (arr.foldl (fun mpp x => increment mpp x) m) x =
          if x ∈ arr then some ((lookup m x).getD 0 + (arr.count x : Int)) else lookup m x := by
  induction arr with
  | nil => intro m hm; simp [hm]
  | cons a rest ih =>
    intro m hm
    obtain ⟨hs, hx⟩ := ih (increment m a) (increment_sorted m a hm)
    refine ⟨by simpa using hs, fun x => ?_⟩
    obtain ⟨h1, h2⟩ := hx x
    simp only [List.foldl_cons]
    refine ⟨?_, ?_⟩
    · rw [h1, mem_keys_increment, List.mem_cons]; tauto
    · rw [h2, lookup_increment m a x hm]
      by_cases hxa : x = a
      · subst hxa
        by_cases hr : x ∈ rest
        · simp [hr]; ring
        · simp [hr, List.count_eq_zero_of_not_mem hr]
      · have hax : ¬ (a = x) := fun h => hxa h.symm
        by_cases hr : x ∈ rest
        · simp [hr, hxa, List.count_cons, hax]
        · simp [hr, hxa]

theorem mem_iff_lookup (m : Map) (hm : (keys m).Pairwise (· < ·)) (x v : Int) :
    (x, v) ∈ m ↔ lookup m x = some v := by
  induction m with
  | nil => simp [lookup]
  | cons p rest ih =>
    obtain ⟨k', v'⟩ := p
    have hm' : (∀ a ∈ keys rest, k' < a) ∧ (keys rest).Pairwise (· < ·) := by
      simpa [keys] using hm
    by_cases h : k' = x
    · subst h
      have hnot : ∀ w, (k', w) ∉ rest := by
        intro w hw
        have : k' ∈ keys rest := List.mem_map.mpr ⟨(k', w), hw, rfl⟩
        have := hm'.1 k' this
        omega
      simp only [List.mem_cons, Prod.mk.injEq, true_and, hnot v, or_false, lookup, if_true,
        Option.some.injEq]
      exact eq_comm
    · have hx : ¬ (x = k') := fun e => h e.symm
      simp only [List.mem_cons, Prod.mk.injEq, hx, false_and, false_or, lookup, h, if_false]
      exact ih hm'.2

/-! ## Properties of `preComputeHash` -/

/-- C10: `preComputeHash` maps each value to its occurrence count: the returned
map contains key `x` exactly when `x` occurs in `arr`, and then the value
stored at `x` (the only entry with key `x`) is the number of positions of `arr`
holding `x`. -/
theorem preComputeHash_counts (arr : List Int) (x : Int) :
    (x ∈ keys (preComputeHash arr) ↔ x ∈ arr) ∧
      (x ∈ arr → lookup (preComputeHash arr) x = some (arr.count x : Int)) ∧
      ∀ v : Int, (x, v) ∈ preComputeHash arr ↔ x ∈ arr ∧ v = (arr.count x : Int) := by
  obtain ⟨hs, hx⟩ := foldl_increment arr [] (by simp [keys])
  obtain ⟨h1, h2⟩ := hx x
  have hl : lookup (preComputeHash arr) x =
      if x ∈ arr then some (arr.count x : Int) else none := by
    simpa [preComputeHash, lookup] using h2
  refine ⟨by simpa [preComputeHash, keys] using h1, fun hmem => by simp [hl, hmem], fun v => ?_⟩
  rw [mem_iff_lookup (preComputeHash arr) hs x v, hl]
  by_cases hmem : x ∈ arr
  · simp [hmem, eq_comm]
  · simp [hmem]

/-! ## The fetch of `Mapping.cpp` -/

theorem preComputeHash_sorted (arr : List Int) :
    (keys (preComputeHash arr)).Pairwise (· < ·) :=
  (foldl_increment arr [] (by simp [keys])).1

theorem lookup_preComputeHash (arr : List Int) (x : Int) :
    lookup (preComputeHash arr) x = if x ∈ arr then some (arr.count x : Int) else none := by
  have h := ((foldl_increment arr [] (by simp [keys])).2 x).2
  simpa [preComputeHash, lookup] using h

theorem mem_keys_preComputeHash (arr : List Int) (x : Int) :
    x ∈ keys (preComputeHash arr) ↔ x ∈ arr := by
  have h := ((foldl_increment arr [] (by simp [keys])).2 x).1
  simpa [preComputeHash, keys] using h

/-- The value a fetch returns is the stored value, or `0` for an absent key. -/
theorem fetch_value (m : Map) (hm : (keys m).Pairwise (· < ·)) (q : Int) :
    (fetch m q).1 = (lookup m q).getD 0 := by
  simp [fetch, subscript, lookup_emplace m q 0 q hm]

theorem keys_emplace_perm (m : Map) (k v : Int) (hk : k ∉ keys m) :
    (keys (emplace m k v)).Perm (k :: keys m) := by
  induction m with
  | nil => simp [emplace, keys]
  | cons p rest ih =>
    obtain ⟨k', v'⟩ := p
    have hk' : k ≠ k' ∧ k ∉ keys rest := by simpa [keys] using hk
    by_cases h1 : k < k'
    · simp [emplace, keys, h1]
    · have e : keys (emplace ((k', v') :: rest) k v) = k' :: keys (emplace rest k v) := by
        simp [emplace, keys, h1, hk'.1]
      have e2 : keys ((k', v') :: rest) = k' :: keys rest := by simp [keys]
      rw [e, e2]
      exact ((ih hk'.2).cons k').trans (List.Perm.swap k k' (keys rest))

/-- C11: fetching a key that does not occur in `arr` from the map returned by
`preComputeHash(arr)` yields `0` (a value, not an error), and fetching a key
that occurs yields its occurrence count in `arr`. -/
theorem fetch_unseen_is_zero (arr : List Int) (q : Int) :
    (q ∉ arr → (fetch (preComputeHash arr) q).1 = 0) ∧
      (q ∈ arr → (fetch (preComputeHash arr) q).1 = (arr.count q : Int)) := by
  rw [fetch_value _ (preComputeHash_sorted arr), lookup_preComputeHash]
  constructor
  · intro h; simp [h]
  · intro h; simp [h]

/-! ## Auxiliary facts about the character table -/

theorem toSizeType_of_nonneg {c : Int} (h0 : 0 ≤ c) (h1 : c ≤ 255) :
    toSizeType c = c.toNat ∧ c.toNat < 256 := by
  unfold toSizeType
  rw [Int.emod_eq_of_lt h0 (by omega)]
  exact ⟨rfl, by omega⟩

theorem wrapInt_of_small {x : Int} (h0 : 0 ≤ x) (h1 : x < 2 ^ 31) : wrapInt x = x := by
  unfold wrapInt
  rw [Int.emod_eq_of_lt (by omega) (by omega)]
  omega

theorem getD_set_of_lt (l : List Int) {i : Nat} (hi : i < l.length) (v : Int) (k : Nat) :
    (l.set i v).getD k 0 = if k = i then v else l.getD k 0 := by
  simp only [List.getD_eq_getElem?_getD, List.getElem?_set]
  by_cases h : i = k
  · subst h; simp [hi]
  · simp [h, Ne.symm h]

/-- The counting loop on chars with values in `0..255`, started from a table of
256 entries: it returns normally, dereferences exactly the char values, keeps
the size of the table, and adds to each entry the number of occurrences of its
index, as long as no entry can reach `2^31`. -/
theorem countLoop_spec :
    ∀ (s : List Int) (tbl : List Int) (log : List Nat), tbl.length = 256 →
      (∀ c ∈ s, 0 ≤ c ∧ c ≤ 255) →
      ∃ tbl', countLoop s (tbl, log) = .ok (tbl', log ++ s.map Int.toNat) ∧
        tbl'.length = 256 ∧
        ((∀ k, k < 256 → 0 ≤ tbl.getD k 0 ∧ tbl.getD k 0 + (s.length : Int) < 2 ^ 31) →
          ∀ k, k < 256 → tbl'.getD k 0 = tbl.getD k 0 + (s.count (k : Int) : Int)) := by
  intro s
  induction s with
  | nil =>
    intro tbl log hl _
    exact ⟨tbl, by simp [countLoop], hl, fun _ k _ => by simp⟩
  | cons c rest ih =>
    intro tbl log hl hs
    have hc := hs c (List.mem_cons_self c rest)
    obtain ⟨hk0, hk1⟩ := toSizeType_of_nonneg hc.1 hc.2
    have hkl : c.toNat < tbl.length := by omega
    obtain ⟨tbl', hrun, hl', hcount⟩ :=
      ih (tbl.set c.toNat (wrapInt (tbl.getD c.toNat 0 + 1))) (log ++ [c.toNat])
        (by simpa using hl) (fun d hd => hs d (List.mem_cons_of_mem c hd))
    refine ⟨tbl', ?_, hl', ?_⟩
    · simp only [countLoop, countChar, hk0, index_ok hkl, bind, Except.bind, pure, Except.pure,
        hrun, List.map_cons, List.append_assoc, List.singleton_append]
    · intro H k hk
      have hv := H c.toNat hk1
      have hlen : ((c :: rest).length : Int) = (rest.length : Int) + 1 := by simp
      rw [hlen] at hv
      have hw : wrapInt (tbl.getD c.toNat 0 + 1) = tbl.getD c.toNat 0 + 1 :=
        wrapInt_of_small (by omega) (by omega)
      rw [hw] at hcount
      have hstep := hcount (fun k' hk' => by
        rw [getD_set_of_lt tbl hkl]
        have hv' := H k' hk'
        rw [hlen] at hv'
        by_cases e : k' = c.toNat
        · subst e; simp only [if_true]; omega
        · simp only [e, if_false]; omega) k hk
      rw [hstep, getD_set_of_lt tbl hkl, List.count_cons]
      by_cases e : k = c.toNat
      · subst e
        have : (c == ((c.toNat : Nat) : Int)) = true := by
          rw [beq_iff_eq, Int.toNat_of_nonneg hc.1]
        simp only [if_true, this]
        push_cast
        ring
      · have : (c == (k : Int)) = false := by
          rw [beq_eq_false_iff_ne]
          intro h
          exact e (by omega)
        simp [e, this]

theorem index_of_ge {arr : List Int} {k : Nat} (h : arr.length ≤ k) :
    index arr k = .error .outOfRange := by
  simp [index, List.getElem?_eq_none h]

theorem toSizeType_of_neg {c : Int} (h0 : -128 ≤ c) (h1 : c < 0) : 256 ≤ toSizeType c := by
  unfold toSizeType
  have e : c % 2 ^ 64 = c + 2 ^ 64 := by
    rw [← Int.add_mul_emod_self (a := c) (b := 1) (c := 2 ^ 64), one_mul]
    exact Int.emod_eq_of_lt (by omega) (by omega)
  rw [e]
  omega

/-- The counting loop faults at the first char with a negative value. -/
theorem countLoop_fault :
    ∀ (s : List Int) (tbl : List Int) (log : List Nat), tbl.length = 256 →
      (∀ c ∈ s, -128 ≤ c ∧ c ≤ 255) → (∃ c ∈ s, c < 0) →
      countLoop s (tbl, log) = .error .outOfRange := by
  intro s
  induction s with
  | nil =>
    intro tbl log _ _ hneg
    obtain ⟨c, hc, _⟩ := hneg
    cases hc
  | cons c rest ih =>
    intro tbl log hl hs hneg
    have hc := hs c (List.mem_cons_self c rest)
    by_cases h0 : c < 0
    · have hk := toSizeType_of_neg hc.1 h0
      simp only [countLoop, countChar, index_of_ge (le_of_eq_of_le hl hk), bind, Except.bind]
    · obtain ⟨hk0, hk1⟩ := toSizeType_of_nonneg (by omega) hc.2
      have hkl : c.toNat < tbl.length := by omega
      have hrest : ∃ d ∈ rest, d < 0 := by
        obtain ⟨d, hd, hd0⟩ := hneg
        rcases List.mem_cons.mp hd with e | e
        · exact absurd (e ▸ hd0) h0
        · exact ⟨d, e, hd0⟩
      simp only [countLoop, countChar, hk0, index_ok hkl, bind, Except.bind, pure, Except.pure]
      exact ih _ _ (by simpa using hl) (fun d hd => hs d (List.mem_cons_of_mem c hd)) hrest

/-- On a string of chars with values in `0..255` the function returns normally
a table of 256 entries after dereferencing exactly the char values; when the
string has fewer than `2^31` chars, fetching any such char yields its number of
occurrences. -/
theorem PreComputeHash_spec (s : List Int) (hs : ∀ c ∈ s, 0 ≤ c ∧ c ≤ 255) :
    ∃ tbl, PreComputeHash s = .ok (tbl, s.map Int.toNat) ∧ tbl.length = 256 ∧
      ((s.length : Int) < 2 ^ 31 → ∀ c : Int, 0 ≤ c → c ≤ 255 →
        fetchChar tbl c = .ok (s.count c : Int)) := by
  obtain ⟨tbl, hrun, hl, hcount⟩ :=
    countLoop_spec s (List.replicate 256 0) [] (List.length_replicate 256 0) hs
  rw [List.nil_append] at hrun
  refine ⟨tbl, hrun, hl, ?_⟩
  intro hlen c h0 h1
  obtain ⟨hk0, hk1⟩ := toSizeType_of_nonneg h0 h1
  have hget : ∀ k, k < 256 → (List.replicate 256 (0 : Int)).getD k 0 = 0 := by
    intro k hk
    rw [List.getD_eq_getElem?_getD, List.getElem?_replicate]
    simp only [hk, if_true, Option.getD_some]
  have h := hcount (fun k hk => by rw [hget k hk]; omega) c.toNat hk1
  rw [hget c.toNat hk1, Int.toNat_of_nonneg h0, zero_add] at h
  unfold fetchChar
  rw [hk0, index_ok (by omega), h]

/-! ## Properties of `PreComputeHash` -/

/-- C12 (the code departs from the claim): on strings of fewer than `2^31`
chars with values in `0..255` the table has 256 entries and fetching a char
yields its number of occurrences; but on the string "é" in UTF-8, the chars
`-61, -87` where `char` is signed, the first `HashArr[c]++` dereferences index
`2^64 - 61` of the 256-entry table and the run faults instead of returning the
counts. -/
theorem PreComputeHash_counts_chars :
    (∀ s : List Int, (∀ c ∈ s, 0 ≤ c ∧ c ≤ 255) → (s.length : Int) < 2 ^ 31 →
        ∃ tbl log, PreComputeHash s = .ok (tbl, log) ∧ tbl.length = 256 ∧
          ∀ c : Int, 0 ≤ c → c ≤ 255 → fetchChar tbl c = .ok (s.count c : Int)) ∧
      toSizeType (-61) = 2 ^ 64 - 61 ∧
      PreComputeHash [-61, -87] = .error .outOfRange := by
  refine ⟨fun s hs hlen => ?_, by decide, ?_⟩
  · obtain ⟨tbl, hrun, hl, hfetch⟩ := PreComputeHash_spec s hs
    exact ⟨tbl, _, hrun, hl, hfetch hlen⟩
  · exact countLoop_fault [-61, -87] (List.replicate 256 0) [] (List.length_replicate 256 0)
      (by decide) (by decide)

/-- C20: index safety of `PreComputeHash`: on a string whose chars all have
values in `0..127` the run returns normally a table of 256 entries, the indices
dereferenced at `HashArr[c]++` are exactly the char values and all lie in
`[0, 255]`; the guarantee does not extend to negative char values, for which
the run on the one-char string `-1` faults. -/
theorem PreComputeHash_index_safe :
    (∀ s : List Int, (∀ c ∈ s, 0 ≤ c ∧ c ≤ 127) →
        ∃ tbl log, PreComputeHash s = .ok (tbl, log) ∧ tbl.length = 256 ∧
          log = s.map toSizeType ∧ ∀ k ∈ log, 0 ≤ k ∧ k ≤ 255) ∧
      PreComputeHash [-1] = .error .outOfRange := by
  refine ⟨fun s hs => ?_, ?_⟩
  · have hs' : ∀ c ∈ s, 0 ≤ c ∧ c ≤ 255 := fun c hc => ⟨(hs c hc).1, by have := (hs c hc).2; omega⟩
    obtain ⟨tbl, hrun, hl, _⟩ := PreComputeHash_spec s hs'
    have hmap : s.map Int.toNat = s.map toSizeType := by
      apply List.map_congr_left
      intro c hc
      exact (toSizeType_of_nonneg (hs' c hc).1 (hs' c hc).2).1.symm
    refine ⟨tbl, s.map Int.toNat, hrun, hl, hmap, ?_⟩
    intro k hk
    obtain ⟨c, hc, rfl⟩ := List.mem_map.mp hk
    have := (toSizeType_of_nonneg (hs' c hc).1 (hs' c hc).2).2
    exact ⟨Nat.zero_le _, by omega⟩
  · exact countLoop_fault [-1] (List.replicate 256 0) [] (List.length_replicate 256 0)
      (by decide) (by decide)

/-- The guarantee of `PreComputeHash_index_safe` at the string "hi". -/
theorem PreComputeHash_index_safe_witness :
    ∃ tbl log, PreComputeHash [104, 105] = .ok (tbl, log) ∧ tbl.length = 256 ∧
      log = [104, 105].map toSizeType ∧ ∀ k ∈ log, 0 ≤ k ∧ k ≤ 255 :=
  PreComputeHash_index_safe.1 [104, 105] (by decide)

/-! ## Auxiliary facts about the counters of `selectionSort` -/

/-- The inner loop started at `j` evaluates the comparison `n - j` times and
leaves the pass counter alone. -/
theorem innerLoop_counts (arr : List Int) (n : Int) :
    ∀ (fuel minIdx j : Nat) (t : Trace) (m : Nat) (t' : Trace),
      innerLoop arr n fuel minIdx j t = .ok (m, t') →
      t'.passes = t.passes ∧ t'.comparisons = t.comparisons + (n - j).toNat := by
  intro fuel
  induction fuel with
  | zero =>
    intro minIdx j t m t' h
    by_cases hg : (j : Int) ≤ n - 1
    · simp only [innerLoop, hg, if_true] at h
      cases h
    · simp only [innerLoop, hg, if_false] at h
      cases h
      exact ⟨rfl, by omega⟩
  | succ fuel ih =>
    intro minIdx j t m t' h
    by_cases hg : (j : Int) ≤ n - 1
    · simp only [innerLoop, hg, if_true, bind, Except.bind] at h
      cases hx : index arr minIdx with
      | error e => simp only [hx] at h; cases h
      | ok x =>
        cases hy : index arr j with
        | error e => simp only [hx, hy] at h; cases h
        | ok y =>
          simp only [hx, hy] at h
          obtain ⟨h1, h2⟩ := ih _ _ _ _ _ h
          simp only at h1 h2
          refine ⟨h1, ?_⟩
          rw [h2]
          push_cast
          omega
    · simp only [innerLoop, hg, if_false] at h
      cases h
      exact ⟨rfl, by omega⟩

/-- A pass at counter `i` counts one pass and `n - i` comparisons. -/
theorem pass_counts (arr : List Int) (n : Int) (i : Nat) (t : Trace) (out : List Int)
    (t' : Trace) (h : pass arr n i t = .ok (out, t')) :
    t'.passes = t.passes + 1 ∧ t'.comparisons = t.comparisons + (n - i).toNat := by
  simp only [pass, bind, Except.bind, pure, Except.pure] at h
  cases hin : innerLoop arr n (n - i).toNat i i { t with passes := t.passes + 1 } with
  | error e => simp only [hin] at h; cases h
  | ok r =>
    obtain ⟨m, t1⟩ := r
    simp only [hin] at h
    cases hsw : swap arr i m with
    | error e => simp only [hsw] at h; cases h
    | ok arr1 =>
      simp only [hsw] at h
      cases h
      obtain ⟨h1, h2⟩ := innerLoop_counts arr n _ _ _ _ _ _ hin
      exact ⟨h1, h2⟩

/-- The outer loop started at `i` counts `n - 1 - i` passes; with `d = n - i`
it counts `d (d + 1) / 2 - 1` comparisons when `d ≥ 1`, and none when `d ≤ 1`. -/
theorem outerLoop_counts (n : Int) :
    ∀ (fuel : Nat) (arr : List Int) (i : Nat) (t : Trace) (out : List Int) (t' : Trace),
      outerLoop n fuel arr i t = .ok (out, t') →
      t'.passes = t.passes + (n - 1 - i).toNat ∧
        (1 ≤ (n - i).toNat →
          2 * t'.comparisons + 2 =
            2 * t.comparisons + (n - i).toNat * ((n - i).toNat + 1)) ∧
        ((n - i).toNat ≤ 1 → t'.comparisons = t.comparisons) := by
  intro fuel
  induction fuel with
  | zero =>
    intro arr i t out t' h
    by_cases hg : (i : Int) ≤ n - 2
    · simp only [outerLoop, hg, if_true] at h
      cases h
    · simp only [outerLoop, hg, if_false] at h
      cases h
      refine ⟨by omega, fun hd => ?_, fun _ => rfl⟩
      have e : (n - (i : Int)).toNat = 1 := by omega
      rw [e]
  | succ fuel ih =>
    intro arr i t out t' h
    by_cases hg : (i : Int) ≤ n - 2
    · simp only [outerLoop, hg, if_true, bind, Except.bind] at h
      cases hp : pass arr n i t with
      | error e => simp only [hp] at h; cases h
      | ok r =>
        obtain ⟨arr1, t1⟩ := r
        simp only [hp] at h
        obtain ⟨p1, c1⟩ := pass_counts arr n i t arr1 t1 hp
        obtain ⟨p2, c2, _⟩ := ih arr1 (i + 1) t1 out t' h
        obtain ⟨d, hd⟩ : ∃ d, (n - (i : Int)).toNat = d + 2 := ⟨(n - (i : Int)).toNat - 2, by omega⟩
        have hd' : (n - ((i + 1 : Nat) : Int)).toNat = d + 1 := by push_cast; omega
        rw [hd'] at c2
        rw [hd] at c1
        refine ⟨by rw [p2, p1]; push_cast; omega, fun _ => ?_, fun hle => by omega⟩
        have c3 := c2 (by omega)
        rw [hd, c1] at *
        have e1 : (d + 2) * (d + 2 + 1) = d * d + 5 * d + 6 := by ring
        have e2 : (d + 1) * (d + 1 + 1) = d * d + 3 * d + 2 := by ring
        rw [e1]
        rw [e2] at c3
        omega
    · simp only [outerLoop, hg, if_false] at h
      cases h
      refine ⟨by omega, fun hd => ?_, fun _ => rfl⟩
      have e : (n - (i : Int)).toNat = 1 := by omega
      rw [e]

/-! ## Counters and scan of `selectionSort` -/

/-- C13: for every vector of length `n ≥ 1` the call executes the outer loop
body exactly `n - 1` times, whatever the order of the elements; for `n = 0`
it executes it `0` times. -/
theorem selectionSort_pass_count (arr : List Int) :
    ∃ out t, selectionSort arr arr.length = .ok (out, t) ∧
      (1 ≤ arr.length → t.passes = arr.length - 1) ∧ (arr.length = 0 → t.passes = 0) := by
  obtain ⟨out, t, hrun, _⟩ := selectionSort_spec arr arr.length (le_refl _)
  have h := (outerLoop_counts _ _ arr 0 Trace.init out t hrun).1
  simp only [Trace.init] at h
  exact ⟨out, t, hrun, fun _ => by omega, fun _ => by omega⟩

/-- C14: the number of evaluations of `arr[minIdx] > arr[j]` depends only on
the length: two vectors of the same length `n ≥ 1` give the same count,
`n (n + 1) / 2 - 1`, which is at most `n^2`; a pass at counter `i` contributes
`n - i` comparisons. -/
theorem selectionSort_comparison_count (arr₁ arr₂ : List Int)
    (hlen : arr₁.length = arr₂.length) (hpos : 1 ≤ arr₁.length) :
    ∃ out₁ t₁ out₂ t₂, selectionSort arr₁ arr₁.length = .ok (out₁, t₁) ∧
      selectionSort arr₂ arr₂.length = .ok (out₂, t₂) ∧
      t₁.comparisons = t₂.comparisons ∧
      t₁.comparisons = arr₁.length * (arr₁.length + 1) / 2 - 1 ∧
      t₁.comparisons ≤ arr₁.length ^ 2 ∧
      ∀ (a : List Int) (i : Nat) (t : Trace) (r : List Int × Trace),
        pass a arr₁.length i t = .ok r →
        r.2.comparisons = t.comparisons + (arr₁.length - i) := by
  obtain ⟨out₁, t₁, hrun₁, _⟩ := selectionSort_spec arr₁ arr₁.length (le_refl _)
  obtain ⟨out₂, t₂, hrun₂, _⟩ := selectionSort_spec arr₂ arr₂.length (le_refl _)
  have h₁ := (outerLoop_counts _ _ arr₁ 0 Trace.init out₁ t₁ hrun₁).2.1
  have h₂ := (outerLoop_counts _ _ arr₂ 0 Trace.init out₂ t₂ hrun₂).2.1
  have e₁ : ((arr₁.length : Int) - ((0 : Nat) : Int)).toNat = arr₁.length := by omega
  have e₂ : ((arr₂.length : Int) - ((0 : Nat) : Int)).toNat = arr₁.length := by omega
  rw [e₁] at h₁
  rw [e₂] at h₂
  simp only [Trace.init] at h₁ h₂
  have c₁ := h₁ hpos
  have c₂ := h₂ hpos
  have hsq : arr₁.length * (arr₁.length + 1) ≤ 2 * arr₁.length ^ 2 + 2 := by nlinarith
  refine ⟨out₁, t₁, out₂, t₂, hrun₁, hrun₂, by omega, by omega, by omega, ?_⟩
  intro a i t r hr
  obtain ⟨a', t'⟩ := r
  have := (pass_counts a _ i t a' t' hr).2
  simp only
  omega

/-- The count of `selectionSort_comparison_count` at `[3,1,2]` and `[1,2,3]`. -/
theorem selectionSort_comparison_count_witness :
    ∃ out₁ t₁ out₂ t₂, selectionSort [3, 1, 2] 3 = .ok (out₁, t₁) ∧
      selectionSort [1, 2, 3] 3 = .ok (out₂, t₂) ∧
      t₁.comparisons = t₂.comparisons ∧ t₁.comparisons = 5 ∧ t₁.comparisons ≤ 9 ∧
      ∀ (a : List Int) (i : Nat) (t : Trace) (r : List Int × Trace),
        pass a 3 i t = .ok r → r.2.comparisons = t.comparisons + (3 - i) :=
  selectionSort_comparison_count [3, 1, 2] [1, 2, 3] (by decide) (by decide)

/-- C15: the inner scan of pass `i` (`0 ≤ i ≤ n-2`) on a vector of length `n`
ends with `i ≤ minIdx ≤ n-1` and `arr[minIdx] ≤ arr[k]` for every `k` in
`[i, n-1]`, and `minIdx` is the smallest index of `[i, n-1]` with that
property. -/
theorem innerLoop_finds_first_min (arr : List Int) (i : Nat) (t : Trace)
    (hi : i + 2 ≤ arr.length) :
    ∃ m t', innerLoop arr arr.length ((arr.length : Int) - i).toNat i i t = .ok (m, t') ∧
      i ≤ m ∧ m ≤ arr.length - 1 ∧
      ∃ hm : m < arr.length,
        (∀ (k : Nat) (hk : k < arr.length), i ≤ k → arr[m] ≤ arr[k]) ∧
        ∀ (m' : Nat) (hm' : m' < arr.length), i ≤ m' →
          (∀ (k : Nat) (hk : k < arr.length), i ≤ k → arr[m'] ≤ arr[k]) → m ≤ m' := by
  obtain ⟨m, t', hrun, h1, h2, h3, h4⟩ :=
    innerLoop_spec arr arr.length (le_refl _) i ((arr.length : Int) - i).toNat i i t
      (le_refl _) (by omega) (le_refl _) (by omega) (by omega)
      (fun k hk1 hk2 => by omega) (fun k hk1 hk2 => by omega)
  refine ⟨m, t', hrun, h1, by omega, h2, ?_, ?_⟩
  · intro k hk hik
    have := h3 k hik hk
    rwa [List.getD_eq_getElem arr 0 h2, List.getD_eq_getElem arr 0 hk] at this
  · intro m' hm' him' hmin
    by_contra hlt
    have hlt' : m' < m := by omega
    have a := h4 m' him' hlt'
    rw [List.getD_eq_getElem arr 0 h2, List.getD_eq_getElem arr 0 hm'] at a
    have b := hmin m h2 h1
    omega

/-- The scan of `innerLoop_finds_first_min` at `[4,2,7,2]`, pass `0`. -/
theorem innerLoop_finds_first_min_witness :
    ∃ m t', innerLoop [4, 2, 7, 2] 4 4 0 0 Trace.init = .ok (m, t') ∧
      0 ≤ m ∧ m ≤ 3 ∧
      ∃ hm : m < 4,
        (∀ (k : Nat) (hk : k < 4), 0 ≤ k → [4, 2, 7, (2 : Int)][m] ≤ [4, 2, 7, (2 : Int)][k]) ∧
        ∀ (m' : Nat) (hm' : m' < 4), 0 ≤ m' →
          (∀ (k : Nat) (hk : k < 4), 0 ≤ k → [4, 2, 7, (2 : Int)][m'] ≤ [4, 2, 7, (2 : Int)][k]) →
            m ≤ m' :=
  innerLoop_finds_first_min [4, 2, 7, 2] 0 Trace.init (by decide)

/-! ## The state between two passes -/

/-- One pass at counter `i ≤ n-2` carries the invariant of the outer loop from
`i` to `i + 1`: `arr[0..i-1]` non-decreasing and below `arr[i..n-1]`. -/
theorem pass_invariant (arr : List Int) (n : Nat) (hn : n ≤ arr.length) (i : Nat)
    (hi : i + 2 ≤ n) (t : Trace)
    (inv1 : ∀ a b, a ≤ b → b < i → arr.getD a 0 ≤ arr.getD b 0)
    (inv2 : ∀ a b, a < i → i ≤ b → b < n → arr.getD a 0 ≤ arr.getD b 0) :
    ∃ out t', pass arr n i t = .ok (out, t') ∧ out.length = arr.length ∧ out.Perm arr ∧
      (∀ a b, a ≤ b → b < i + 1 → out.getD a 0 ≤ out.getD b 0) ∧
      (∀ a b, a < i + 1 → i + 1 ≤ b → b < n → out.getD a 0 ≤ out.getD b 0) := by
  obtain ⟨m, t1, hrun, h1, h2, h3, _⟩ := pass_spec arr n hn i hi t
  have hil : i < arr.length := by omega
  have hml : m < arr.length := by omega
  refine ⟨_, t1, hrun, by simp, swapped_perm arr hil hml, ?_, ?_⟩
  · intro a b hab hb
    rw [getD_swapped arr hil hml, getD_swapped arr hil hml]
    by_cases hbi : b = i
    · subst hbi
      by_cases hai : a = b
      · subst hai; exact le_refl _
      · have ham : a ≠ m := by omega
        have hle := inv2 a m (by omega) h1 h2
        by_cases hbm : b = m
        · subst hbm; simpa [hai] using hle
        · simpa [hbm, hai, ham] using hle
    · have hbm : b ≠ m := by omega
      have hai : a ≠ i := by omega
      have ham : a ≠ m := by omega
      simpa [hbm, hbi, hai, ham] using inv1 a b hab (by omega)
  · intro a b ha hb1 hb2
    rw [getD_swapped arr hil hml, getD_swapped arr hil hml]
    have hbi : b ≠ i := by omega
    have hrhs : ∃ k, i ≤ k ∧ k < n ∧
        (if b = m then arr.getD i 0 else if b = i then arr.getD m 0 else arr.getD b 0)
          = arr.getD k 0 := by
      by_cases hbm : b = m
      · exact ⟨i, le_refl _, by omega, by simp [hbm]⟩
      · exact ⟨b, by omega, hb2, by simp [hbm, hbi]⟩
    obtain ⟨k, hk1, hk2, hk⟩ := hrhs
    rw [hk]
    by_cases hai : a = i
    · subst hai
      have hle := h3 k hk1 hk2
      by_cases ham : a = m
      · subst ham; simpa using hle
      · simpa [ham] using hle
    · have ham : a ≠ m := by omega
      simpa [ham, hai] using inv2 a k (by omega) hk1 hk2

/-- After `k ≤ n-1` passes on a vector of at least `n` cells the run has not
faulted, `k` passes are counted, and the invariant of the outer loop holds at
`k`. -/
theorem afterPasses_spec (arr : List Int) (n : Nat) (hn : n ≤ arr.length) :
    ∀ k : Nat, k + 1 ≤ n →
      ∃ a t, afterPasses arr n k = .ok (a, t) ∧ t.passes = k ∧ a.length = arr.length ∧
        a.Perm arr ∧
        (∀ p q, p ≤ q → q < k → a.getD p 0 ≤ a.getD q 0) ∧
        (∀ p q, p < k → k ≤ q → q < n → a.getD p 0 ≤ a.getD q 0) := by
  intro k
  induction k with
  | zero =>
    intro _
    exact ⟨arr, Trace.init, rfl, rfl, rfl, List.Perm.refl _,
      fun p q _ hq => absurd hq (Nat.not_lt_zero _),
      fun p q hp _ _ => absurd hp (Nat.not_lt_zero _)⟩
  | succ k ih =>
    intro hk
    obtain ⟨a, t, hrun, hp, hl, hperm, inv1, inv2⟩ := ih (by omega)
    obtain ⟨out, t', hpass, hl', hperm', inv1', inv2'⟩ :=
      pass_invariant a n (by omega) k (by omega) t inv1 inv2
    have hg : (k : Int) ≤ (n : Int) - 2 := by omega
    refine ⟨out, t', ?_, ?_, hl'.trans hl, hperm'.trans hperm, inv1', inv2'⟩
    · simp only [afterPasses, hrun, hg, if_true, hpass, bind, Except.bind]
    · rw [(pass_counts a n k t out t' hpass).1, hp]

theorem outerLoop_exit (n : Int) (fuel : Nat) (arr : List Int) (i : Nat) (t : Trace)
    (hg : ¬ ((i : Int) ≤ n - 2)) : outerLoop n fuel arr i t = .ok (arr, t) := by
  cases fuel with
  | zero => simp only [outerLoop, hg, if_false]
  | succ fuel => simp only [outerLoop, hg, if_false]

/-- The state after `k` iterations is the state from which the outer loop
carries on: the whole call is the outer loop resumed at counter `k`. -/
theorem afterPasses_resume (arr : List Int) (n : Int) :
    ∀ (k : Nat) (a : List Int) (t : Trace), afterPasses arr n k = .ok (a, t) →
      selectionSort arr n = outerLoop n (n - k).toNat a k t := by
  intro k
  induction k with
  | zero =>
    intro a t h
    simp only [afterPasses] at h
    cases h
    rfl
  | succ k ih =>
    intro a t h
    simp only [afterPasses, bind, Except.bind] at h
    cases hk : afterPasses arr n k with
    | error e => simp only [hk] at h; cases h
    | ok r =>
      obtain ⟨a0, t0⟩ := r
      simp only [hk] at h
      rw [ih a0 t0 hk]
      by_cases hg : (k : Int) ≤ n - 2
      · simp only [hg, if_true] at h
        obtain ⟨f, hf⟩ : ∃ f, (n - (k : Int)).toNat = f + 1 := ⟨(n - (k : Int)).toNat - 1, by omega⟩
        have hf' : (n - ((k + 1 : Nat) : Int)).toNat = f := by push_cast; omega
        rw [hf, hf']
        simp only [outerLoop, hg, if_true, h, bind, Except.bind]
      · simp only [hg, if_false] at h
        cases h
        have hg' : ¬ (((k + 1 : Nat) : Int) ≤ n - 2) := by push_cast; omega
        rw [outerLoop_exit n _ a k t hg, outerLoop_exit n _ a (k + 1) t hg']

/-- C16: outer-loop invariant: on a vector of length `n`, for `0 ≤ i ≤ n-2`,
the state after the pass with index `i` (from which the loop resumes at `i+1`)
has `arr[0..i]` non-decreasing, every element of `arr[0..i]` at most every
element of `arr[i+1..n-1]`, and `arr` a permutation of the original input. -/
theorem afterPasses_invariant (arr : List Int) (i : Nat) (hi : i + 2 ≤ arr.length) :
    ∃ a t, afterPasses arr arr.length (i + 1) = .ok (a, t) ∧ t.passes = i + 1 ∧
      selectionSort arr arr.length =
        outerLoop arr.length ((arr.length : Int) - ((i + 1 : Nat) : Int)).toNat a (i + 1) t ∧
      a.length = arr.length ∧
      (∀ (p q : Nat) (hq : q < a.length) (hpq : p ≤ q), q ≤ i → a[p] ≤ a[q]) ∧
      (∀ (p q : Nat) (hq : q < a.length) (hpq : p ≤ q), p ≤ i → i + 1 ≤ q → a[p] ≤ a[q]) ∧
      a.Perm arr := by
  obtain ⟨a, t, hrun, hp, hl, hperm, inv1, inv2⟩ :=
    afterPasses_spec arr arr.length (le_refl _) (i + 1) (by omega)
  refine ⟨a, t, hrun, hp, afterPasses_resume arr _ (i + 1) a t hrun, hl, ?_, ?_, hperm⟩
  · intro p q hq hpq hqi
    have h := inv1 p q hpq (by omega)
    rwa [List.getD_eq_getElem a 0 (by omega), List.getD_eq_getElem a 0 hq] at h
  · intro p q hq hpq hpi hiq
    have h := inv2 p q (by omega) hiq (by omega)
    rwa [List.getD_eq_getElem a 0 (by omega), List.getD_eq_getElem a 0 hq] at h

/-- The invariant of `afterPasses_invariant` at `[3,1,2,0]` after pass `1`. -/
theorem afterPasses_invariant_witness :
    ∃ a t, afterPasses [3, 1, 2, 0] 4 2 = .ok (a, t) ∧ t.passes = 2 ∧
      selectionSort [3, 1, 2, 0] 4 = outerLoop 4 2 a 2 t ∧
      a.length = 4 ∧
      (∀ (p q : Nat) (hq : q < a.length) (hpq : p ≤ q), q ≤ 1 → a[p] ≤ a[q]) ∧
      (∀ (p q : Nat) (hq : q < a.length) (hpq : p ≤ q), p ≤ 1 → 2 ≤ q → a[p] ≤ a[q]) ∧
      a.Perm [3, 1, 2, 0] :=
  afterPasses_invariant [3, 1, 2, 0] 1 (by decide)

/-! ## No-op exchange, prefix sort and frame -/

/-- A vector whose adjacent cells are in order is in order at any two cells. -/
theorem getD_le_of_adjacent (arr : List Int)
    (h : ∀ (k : Nat) (hk : k + 1 < arr.length), arr[k] ≤ arr[k + 1]) :
    ∀ a b, a ≤ b → b < arr.length → arr.getD a 0 ≤ arr.getD b 0 := by
  intro a b hab hb
  induction b with
  | zero =>
    have : a = 0 := by omega
    subst this; exact le_refl _
  | succ b ih =>
    by_cases e : a = b + 1
    · subst e; exact le_refl _
    · have h1 := ih (by omega) (by omega)
      have h2 := h b hb
      rw [← List.getD_eq_getElem arr 0 (by omega), ← List.getD_eq_getElem arr 0 hb] at h2
      exact le_trans h1 h2

/-- C17: when cell `i` already holds a minimum of `arr[i..n-1]`, the scan of
pass `i` leaves `minIdx = i` and the pass leaves `arr` unchanged; consequently
the call returns every non-decreasing vector unchanged. -/
theorem pass_noop_of_min :
    (∀ (arr : List Int) (i : Nat) (t : Trace) (hi : i + 2 ≤ arr.length),
        (∀ (k : Nat) (hk : k < arr.length), i ≤ k → arr[i] ≤ arr[k]) →
        (∃ t', innerLoop arr arr.length ((arr.length : Int) - i).toNat i i t = .ok (i, t')) ∧
          ∃ t', pass arr arr.length i t = .ok (arr, t')) ∧
      ∀ arr : List Int, (∀ (k : Nat) (hk : k + 1 < arr.length), arr[k] ≤ arr[k + 1]) →
        ∃ t, selectionSort arr arr.length = .ok (arr, t) := by
  refine ⟨fun arr i t hi hmin => ?_, fun arr hs => ?_⟩
  · have hmin' : ∀ k, i ≤ k → k < arr.length → arr.getD i 0 ≤ arr.getD k 0 := by
      intro k hik hk
      have h := hmin k hk hik
      rwa [← List.getD_eq_getElem arr 0 (by omega), ← List.getD_eq_getElem arr 0 hk] at h
    refine ⟨?_, pass_of_min arr arr.length (le_refl _) i hi t hmin'⟩
    obtain ⟨m, t', hrun, h1, h2, _, h4⟩ :=
      innerLoop_spec arr arr.length (le_refl _) i ((arr.length : Int) - i).toNat i i t
        (le_refl _) (by omega) (le_refl _) (by omega) (by omega)
        (fun k hk1 hk2 => by omega) (fun k hk1 hk2 => by omega)
    have hm : m = i := by
      by_contra hne
      have a := h4 i (le_refl _) (by omega)
      have b := hmin' m h1 h2
      omega
    subst hm
    exact ⟨t', hrun⟩
  · exact selectionSort_of_sorted arr arr.length (le_refl _)
      (fun a b hab hb => getD_le_of_adjacent arr hs a b hab hb)

/-- The no-op of `pass_noop_of_min` at pass `0` of `[1,3,2]` and on the
non-decreasing vector `[1,2,2,5]`. -/
theorem pass_noop_of_min_witness :
    ((∃ t', innerLoop [1, 3, 2] 3 3 0 0 Trace.init = .ok (0, t')) ∧
        ∃ t', pass [1, 3, 2] 3 0 Trace.init = .ok ([1, 3, 2], t')) ∧
      ∃ t, selectionSort [1, 2, 2, 5] 4 = .ok ([1, 2, 2, 5], t) :=
  ⟨pass_noop_of_min.1 [1, 3, 2] 0 Trace.init (by decide) (by decide),
    pass_noop_of_min.2 [1, 2, 2, 5] (fun k hk => by
      have hk3 : k < 3 := by simp at hk; omega
      interval_cases k <;> simp)⟩

theorem getElem?_eq_of_getD {out arr : List Int} (hl : out.length = arr.length) {k : Nat}
    (h : out.getD k 0 = arr.getD k 0) : out[k]? = arr[k]? := by
  by_cases hk : k < arr.length
  · have hk' : k < out.length := by omega
    rw [List.getD_eq_getElem out 0 hk', List.getD_eq_getElem arr 0 hk] at h
    rw [List.getElem?_eq_getElem hk', List.getElem?_eq_getElem hk, h]
  · rw [List.getElem?_eq_none (by omega), List.getElem?_eq_none (by omega)]

/-- C18: prefix sort and frame: for `0 ≤ n ≤ arr.size()` the call
`selectionSort(arr, n)` returns normally, keeps the size of `arr`, leaves every
cell at a position `≥ n` unchanged, and makes the first `n` cells a
non-decreasing permutation of the original first `n` cells. -/
theorem selectionSort_frame (arr : List Int) (n : Nat) (hn : n ≤ arr.length) :
    ∃ out t, selectionSort arr n = .ok (out, t) ∧ out.length = arr.length ∧
      (∀ k : Nat, n ≤ k → out[k]? = arr[k]?) ∧ out.drop n = arr.drop n ∧
      (out.take n).length = n ∧
      (∀ (k : Nat) (hk : k + 1 < (out.take n).length),
        (out.take n)[k] ≤ (out.take n)[k + 1]) ∧
      (out.take n).Perm (arr.take n) := by
  obtain ⟨out, t, hrun, hlen, hperm, hsorted, hframe⟩ := selectionSort_spec arr n hn
  have hget : ∀ k : Nat, n ≤ k → out[k]? = arr[k]? :=
    fun k hk => getElem?_eq_of_getD hlen (hframe k hk)
  have hdrop : out.drop n = arr.drop n := by
    apply List.ext_getElem?
    intro k
    rw [List.getElem?_drop, List.getElem?_drop]
    exact hget (n + k) (Nat.le_add_right n k)
  have htake : (out.take n).length = n := by
    rw [List.length_take]; omega
  refine ⟨out, t, hrun, hlen, hget, hdrop, htake, ?_, ?_⟩
  · intro k hk
    have hk' : k + 1 < n := by omega
    have h := hsorted k (k + 1) (Nat.le_succ k) hk'
    rw [List.getD_eq_getElem out 0 (by omega), List.getD_eq_getElem out 0 (by omega)] at h
    rw [List.getElem_take, List.getElem_take]
    exact h
  · have h : (out.take n ++ out.drop n).Perm (arr.take n ++ arr.drop n) := by
      rw [List.take_append_drop, List.take_append_drop]; exact hperm
    rw [hdrop] at h
    exact (List.perm_append_right_iff (arr.drop n)).mp h

/-- The prefix sort of `selectionSort_frame` at `[3,1,2,0]` with `n = 2`. -/
theorem selectionSort_frame_witness :
    ∃ out t, selectionSort [3, 1, 2, 0] 2 = .ok (out, t) ∧ out.length = 4 ∧
      (∀ k : Nat, 2 ≤ k → out[k]? = [3, 1, 2, (0 : Int)][k]?) ∧
      out.drop 2 = [2, 0] ∧ (out.take 2).length = 2 ∧
      (∀ (k : Nat) (hk : k + 1 < (out.take 2).length),
        (out.take 2)[k] ≤ (out.take 2)[k + 1]) ∧
      (out.take 2).Perm [3, 1] :=
  selectionSort_frame [3, 1, 2, 0] 2 (by decide)

/-! ## The fetch mutates the map -/

/-- C19: for `q` not occurring in `arr`, the fetch `m[q]` on the map `m`
returned by `preComputeHash(arr)` inserts key `q` with value `0`: `q` was not a
key, the keys afterwards are `q` and the former keys, the value stored at every
other key is unchanged, and a later fetch of any key returns its occurrence
count in `arr`. -/
theorem fetch_inserts_unseen (arr : List Int) (q : Int) (hq : q ∉ arr) :
    q ∉ keys (preComputeHash arr) ∧
      (keys (fetch (preComputeHash arr) q).2).Perm (q :: keys (preComputeHash arr)) ∧
      (∀ x : Int, x ∈ keys (fetch (preComputeHash arr) q).2 ↔
        x = q ∨ x ∈ keys (preComputeHash arr)) ∧
      lookup (fetch (preComputeHash arr) q).2 q = some 0 ∧
      (∀ x : Int, x ≠ q →
        lookup (fetch (preComputeHash arr) q).2 x = lookup (preComputeHash arr) x) ∧
      ∀ x : Int, (fetch (fetch (preComputeHash arr) q).2 x).1 = (arr.count x : Int) := by
  have hs := preComputeHash_sorted arr
  have hk : q ∉ keys (preComputeHash arr) := by rwa [mem_keys_preComputeHash]
  have hm : (fetch (preComputeHash arr) q).2 = emplace (preComputeHash arr) q 0 := rfl
  have hnone : lookup (preComputeHash arr) q = none := (lookup_eq_none_iff _ _).mpr hk
  rw [hm]
  refine ⟨hk, keys_emplace_perm _ q 0 hk, fun x => mem_keys_emplace _ q 0 x, ?_, ?_, ?_⟩
  · rw [lookup_emplace _ q 0 q hs, hnone]; simp
  · intro x hx
    rw [lookup_emplace _ q 0 x hs]; simp [hx]
  · intro x
    rw [fetch_value _ (emplace_sorted _ q 0 hs), lookup_emplace _ q 0 x hs, hnone,
      lookup_preComputeHash]
    by_cases hx : x = q
    · subst hx; simp [List.count_eq_zero_of_not_mem hq]
    · by_cases hmem : x ∈ arr
      · simp [hx, hmem]
      · simp [hx, hmem, List.count_eq_zero_of_not_mem hmem]

/-- The insertion of `fetch_inserts_unseen` at `arr = [3,1,3]`, `q = 2`. -/
theorem fetch_inserts_unseen_witness :
    (2 : Int) ∉ keys (preComputeHash [3, 1, 3]) ∧
      (keys (fetch (preComputeHash [3, 1, 3]) 2).2).Perm (2 :: keys (preComputeHash [3, 1, 3])) ∧
      (∀ x : Int, x ∈ keys (fetch (preComputeHash [3, 1, 3]) 2).2 ↔
        x = 2 ∨ x ∈ keys (preComputeHash [3, 1, 3])) ∧
      lookup (fetch (preComputeHash [3, 1, 3]) 2).2 2 = some 0 ∧
      (∀ x : Int, x ≠ 2 →
        lookup (fetch (preComputeHash [3, 1, 3]) 2).2 x = lookup (preComputeHash [3, 1, 3]) x) ∧
      ∀ x : Int, (fetch (fetch (preComputeHash [3, 1, 3]) 2).2 x).1 =
        (([3, 1, 3] : List Int).count x : Int) :=
  fetch_inserts_unseen [3, 1, 3] 2 (by decide)

/-- The fetches of `fetch_unseen_is_zero` on `arr = [3,1,3]`: the unseen key `2`
gives `0`, the key `3` gives `2`. -/
theorem fetch_unseen_is_zero_witness :
    (fetch (preComputeHash [3, 1, 3]) 2).1 = 0 ∧ (fetch (preComputeHash [3, 1, 3]) 3).1 = 2 :=
  ⟨(fetch_unseen_is_zero [3, 1, 3] 2).1 (by decide),
    (fetch_unseen_is_zero [3, 1, 3] 3).2 (by decide)⟩

end NoobsterDSA
